import Mathlib

/-!
Verification of the `gomcserver` Minecraft-server supervisor library.

This file gives a shallow embedding of the library's core logic and proves
the specification's testable properties about it:

* the log-event extractor `internalOnStdout` and the stdout reader loop
  `listenToStdout` (player join/leave classification and the player counter);
* the supervisor's `Stop` shutdown protocol, `IsRunning` and `GetPID`;
* `Start`'s configuration validation (`validateConfig`) and its ordered
  side effects;
* the archival engine: `createBackupTar` (tar production over a directory
  walk with pruning of the `backups` subtree) and `RestoreBackup`.

Go strings are modelled as `List Char`; Go `int` as `Int` (the player
counter and PIDs are nowhere near machine bounds, and no arithmetic in the
modelled code can overflow in practice); filesystem and process effects are
made explicit (effect traces, liveness oracles, directory trees).
-/

namespace Gomcserver

/-! ## Go string primitives

`leadsWith p s` is Go's `strings.HasPrefix(s, p)`; `strContains sub s` is
`strings.Contains(s, sub)`; `splitFirst sep s` is `strings.SplitN(s, sep, 2)`
restricted to a non-empty separator: `none` when the separator does not occur
(Go returns a one-element slice), otherwise `some (before, after)`. -/

def leadsWith : List Char → List Char → Bool
  | [], _ => true
  | _ :: _, [] => false
  | a :: as, b :: bs => a == b && leadsWith as bs

def strContains (sub : List Char) : List Char → Bool
  | [] => leadsWith sub []
  | c :: rest => leadsWith sub (c :: rest) || strContains sub rest

def splitFirst (sep : List Char) : List Char → Option (List Char × List Char)
  | [] => if leadsWith sep [] then some ([], []) else none
  | c :: rest =>
    if leadsWith sep (c :: rest) then some ([], List.drop sep.length (c :: rest))
    else
      match splitFirst sep rest with
      | some (a, b) => some (c :: a, b)
      | none => none

/-- `strings.Split(line, " ")[0]`: the first space-delimited token of `line`
(the whole of `line` when it holds no space). -/
def firstWord (line : List Char) : List Char :=
  match splitFirst [' '] line with
  | some (w, _) => w
  | none => line

/-! ## Log-event extractor (`internalOnStdout`) -/

def joinedMsg : List Char := "joined the game".data
def leftMsg : List Char := "left the game".data
def logDelim : List Char := "]: ".data

/-- A player event as delivered to the registered `playerJoin` /
`playerLeave` callback: the extracted player name and the reported count. -/
inductive PlayerEvent where
  | join (name : List Char) (count : Int)
  | leave (name : List Char) (count : Int)
deriving DecidableEq

/-- The classification step of `internalOnStdout`: the outer
`strings.Contains` check on the whole chunk, the `SplitN(message, "]: ", 2)`
split (bailing out when the delimiter is absent), and the inner
joined/left checks on the part after the delimiter. Returns
`some (isJoin, playerName)` when a join or leave is recognised. -/
def classifyChunk (message : List Char) : Option (Bool × List Char) :=
  if strContains joinedMsg message || strContains leftMsg message then
    match splitFirst logDelim message with
    | none => none
    | some (_, line) =>
      if strContains joinedMsg line then some (true, firstWord line)
      else if strContains leftMsg line then some (false, firstWord line)
      else none
  else none

/-- `Server.internalOnStdout`: given the current player count and one stdout
chunk, the new player count and the list of emitted player events (the code
emits at most one per chunk). A join increments the counter and reports the
new value; a leave decrements only when the counter is positive and reports
the value after the (floored) decrement. -/
def internalOnStdout (count : Int) (message : List Char) : Int × List PlayerEvent :=
  match classifyChunk message with
  | some (true, name) => (count + 1, [PlayerEvent.join name (count + 1)])
  | some (false, name) =>
      if count > 0 then (count - 1, [PlayerEvent.leave name (count - 1)])
      else (count, [PlayerEvent.leave name count])
  | none => (count, [])

/-- Processing a sequence of stdout chunks through `internalOnStdout`,
collecting all emitted events. -/
def runChunks (count : Int) : List (List Char) → Int × List PlayerEvent
  | [] => (count, [])
  | m :: ms =>
    let r1 := internalOnStdout count m
    let r2 := runChunks r1.1 ms
    (r2.1, r1.2 ++ r2.2)

/-- The successive values of the player counter after each chunk. -/
def counterTrace (count : Int) : List (List Char) → List Int
  | [] => []
  | m :: ms =>
    let c1 := (internalOnStdout count m).1
    c1 :: counterTrace c1 ms

/-- Specification-side counter update for one event: a join increments, a
leave performs a zero-floored decrement. -/
def applyEvent (c : Int) : PlayerEvent → Int
  | PlayerEvent.join _ _ => c + 1
  | PlayerEvent.leave _ _ => max (c - 1) 0

def eventCount : PlayerEvent → Int
  | PlayerEvent.join _ k => k
  | PlayerEvent.leave _ k => k

/-- Each event in the list reports exactly the counter value obtained
immediately after applying that event's increment or floored decrement. -/
def eventsWellCounted (c : Int) : List PlayerEvent → Bool
  | [] => true
  | e :: rest => (eventCount e == applyEvent c e) && eventsWellCounted (applyEvent c e) rest

/-! ## The stdout reader loop (`listenToStdout`)

One loop iteration reads a chunk; the body runs only when the read returned
bytes *and* a stdout callback is registered (`n > 0 && s.onStdout != nil`),
in which case it first classifies via `internalOnStdout` and then forwards
the raw chunk to the callback. -/

def listenToStdoutStep (hasCb : Bool) (count : Int) (chunk : List Char) :
    Int × List PlayerEvent × List (List Char) :=
  if 0 < chunk.length ∧ hasCb = true then
    ((internalOnStdout count chunk).1, (internalOnStdout count chunk).2, [chunk])
  else (count, [], [])

/-- The reader loop over a list of read results: final counter, emitted
player events, and the raw chunks forwarded to the stdout callback. -/
def listenToStdout (hasCb : Bool) (count : Int) : List (List Char) → Int × List PlayerEvent × List (List Char)
  | [] => (count, [], [])
  | chunk :: rest =>
    let r1 := listenToStdoutStep hasCb count chunk
    let r2 := listenToStdout hasCb r1.1 rest
    (r2.1, r1.2.1 ++ r2.2.1, r1.2.2 ++ r2.2.2)

/-! ## String lemmas -/

theorem leadsWith_eq_append (p l : List Char) (h : leadsWith p l = true) :
    l = p ++ List.drop p.length l := by
  induction p generalizing l with
  | nil => simp
  | cons a as ih =>
    cases l with
    | nil => simp [leadsWith] at h
    | cons b bs =>
      simp only [leadsWith, Bool.and_eq_true, beq_iff_eq] at h
      obtain ⟨rfl, h2⟩ := h
      simpa using ih bs h2

theorem strContains_append_left (sub a b : List Char) (h : strContains sub b = true) :
    strContains sub (a ++ b) = true := by
  induction a with
  | nil => simpa using h
  | cons c rest ih =>
    simp only [List.cons_append, strContains, Bool.or_eq_true]
    exact Or.inr ih

theorem splitFirst_eq_append (sep msg a b : List Char)
    (h : splitFirst sep msg = some (a, b)) : msg = a ++ sep ++ b := by
  induction msg generalizing a with
  | nil =>
    simp only [splitFirst] at h
    by_cases hl : leadsWith sep [] = true
    · rw [if_pos hl] at h
      obtain ⟨rfl, rfl⟩ := by simpa using h
      cases sep with
      | nil => simp
      | cons x xs => simp [leadsWith] at hl
    · rw [if_neg (by simpa using hl)] at h
      exact absurd h (by simp)
  | cons c rest ih =>
    simp only [splitFirst] at h
    by_cases hl : leadsWith sep (c :: rest) = true
    · rw [if_pos hl] at h
      obtain ⟨rfl, rfl⟩ := by simpa using h
      simpa using leadsWith_eq_append sep (c :: rest) hl
    · rw [if_neg (by simpa using hl)] at h
      cases hsp : splitFirst sep rest with
      | none => rw [hsp] at h; exact absurd h (by simp)
      | some ab =>
        obtain ⟨a', b'⟩ := ab
        rw [hsp] at h
        obtain ⟨rfl, rfl⟩ : c :: a' = a ∧ b' = b := by simpa using h
        simpa using ih a' hsp

theorem strContains_of_splitFirst (sep msg a b sub : List Char)
    (hsp : splitFirst sep msg = some (a, b)) (h : strContains sub b = true) :
    strContains sub msg = true := by
  rw [splitFirst_eq_append sep msg a b hsp, List.append_assoc]
  exact strContains_append_left sub a (sep ++ b)
    (strContains_append_left sub sep b h)

/-! ## Extractor lemmas -/

/-- Per-chunk behaviour of `internalOnStdout` on a non-negative counter:
the counter stays non-negative, the emitted events fold to the new counter
under the spec-side update, and each event reports the post-update value. -/
theorem internalOnStdout_spec (n : Int) (m : List Char) (h : 0 ≤ n) :
    0 ≤ (internalOnStdout n m).1 ∧
    List.foldl applyEvent n (internalOnStdout n m).2 = (internalOnStdout n m).1 ∧
    eventsWellCounted n (internalOnStdout n m).2 = true := by
  cases hc : classifyChunk m with
  | none => simpa [internalOnStdout, hc, eventsWellCounted] using h
  | some bn =>
    obtain ⟨isJ, nm⟩ := bn
    cases isJ with
    | true =>
      simp only [internalOnStdout, hc, eventsWellCounted, applyEvent, eventCount,
        List.foldl, beq_self_eq_true, Bool.and_true, Bool.and_self]
      refine ⟨by omega, ?_, ?_⟩ <;> simp
    | false =>
      by_cases hpos : n > 0
      · have hmax : max (n - 1) 0 = n - 1 := max_eq_left (by omega)
        simp only [internalOnStdout, hc, if_pos hpos, eventsWellCounted, applyEvent,
          eventCount, List.foldl, hmax]
        refine ⟨by omega, ?_, ?_⟩ <;> simp
      · have hn : n = 0 := le_antisymm (by omega) h
        subst hn
        simp [internalOnStdout, hc, eventsWellCounted, applyEvent, eventCount]

theorem eventsWellCounted_append (c : Int) (l1 l2 : List PlayerEvent) :
    eventsWellCounted c (l1 ++ l2) =
      (eventsWellCounted c l1 && eventsWellCounted (List.foldl applyEvent c l1) l2) := by
  induction l1 generalizing c with
  | nil => simp [eventsWellCounted]
  | cons e rest ih => simp [eventsWellCounted, ih, Bool.and_assoc, List.foldl]

/-- C1: processing any sequence of stdout chunks from a non-negative player
count, the counter never becomes negative (every value in the counter trace
is non-negative), and every emitted playerJoin/playerLeave event reports
exactly the counter value obtained immediately after applying that event's
increment or zero-floored decrement. -/
theorem player_counter_invariant (n : Int) (chunks : List (List Char)) (h : 0 ≤ n) :
    (∀ c ∈ counterTrace n chunks, 0 ≤ c) ∧
    eventsWellCounted n (runChunks n chunks).2 = true := by
  induction chunks generalizing n with
  | nil => simp [counterTrace, runChunks, eventsWellCounted]
  | cons m ms ih =>
    obtain ⟨h1, h2, h3⟩ := internalOnStdout_spec n m h
    obtain ⟨ih1, ih2⟩ := ih (internalOnStdout n m).1 h1
    constructor
    · intro c hc
      simp only [counterTrace, List.mem_cons] at hc
      rcases hc with rfl | hc
      · exact h1
      · exact ih1 c hc
    · simp only [runChunks]
      rw [eventsWellCounted_append, h3, h2]
      simpa using ih2

theorem player_counter_invariant_witness :
    (∀ c ∈ counterTrace 0 ["x]: A joined the game".data, "x]: A left the game".data,
        "x]: B left the game".data], 0 ≤ c) ∧
    eventsWellCounted 0 (runChunks 0 ["x]: A joined the game".data,
        "x]: A left the game".data, "x]: B left the game".data]).2 = true :=
  player_counter_invariant 0 ["x]: A joined the game".data, "x]: A left the game".data,
    "x]: B left the game".data] (by decide)

/-- The stdout chunk of the spec's join scenario. -/
def aliceChunk : List Char := "[12:00:00] [Server thread/INFO]: Alice joined the game".data

/-- C8: on the chunk `"[12:00:00] [Server thread/INFO]: Alice joined the game"`
and any prior count `n`, the extractor increments the counter to `n + 1` and
emits a playerJoin event with name `"Alice"` and count `n + 1`; the name is
obtained by splitting at the first `"]: "` and taking the first
space-delimited token of the remainder. -/
theorem alice_join_chunk (n : Int) :
    internalOnStdout n aliceChunk = (n + 1, [PlayerEvent.join ("Alice".data) (n + 1)]) ∧
    splitFirst logDelim aliceChunk =
      some ("[12:00:00] [Server thread/INFO".data, "Alice joined the game".data) ∧
    firstWord ("Alice joined the game".data) = "Alice".data := by
  refine ⟨?_, by decide, by decide⟩
  have h : classifyChunk aliceChunk = some (true, "Alice".data) := by decide
  simp [internalOnStdout, h]

/-- C10: a chunk whose part after the first `"]: "` contains both
`"joined the game"` and `"left the game"` is classified as a join only:
the counter is incremented once and a single playerJoin event is emitted
(no playerLeave event, no decrement). -/
theorem join_takes_precedence (count : Int) (message a line : List Char)
    (h1 : splitFirst logDelim message = some (a, line))
    (h2 : strContains joinedMsg line = true)
    (h3 : strContains leftMsg line = true) :
    internalOnStdout count message =
      (count + 1, [PlayerEvent.join (firstWord line) (count + 1)]) := by
  have hm : strContains joinedMsg message = true :=
    strContains_of_splitFirst _ _ _ _ _ h1 h2
  have hc : classifyChunk message = some (true, firstWord line) := by
    simp [classifyChunk, hm, h1, h2]
  simp [internalOnStdout, hc]

def bothChunk : List Char :=
  "[12:00:01] [Server thread/INFO]: Bob joined the game and left the game".data
def bothLine : List Char := "Bob joined the game and left the game".data

theorem join_takes_precedence_witness :
    strContains joinedMsg bothLine = true ∧ strContains leftMsg bothLine = true ∧
    internalOnStdout 5 bothChunk =
      (5 + 1, [PlayerEvent.join (firstWord bothLine) (5 + 1)]) :=
  ⟨by decide, by decide,
    join_takes_precedence 5 bothChunk ("[12:00:01] [Server thread/INFO".data) bothLine
      (by decide) (by decide) (by decide)⟩

/-- C9 counterexample: with no stdout callback registered, a join chunk is
not classified at all — the counter stays 0 and no event is emitted — even
though classification alone (`runChunks`) would move the counter to 1. -/
theorem listen_requires_callback_cex :
    listenToStdout false 0 [aliceChunk] = (0, [], []) ∧
    runChunks 0 [aliceChunk] = (1, [PlayerEvent.join ("Alice".data) 1]) := by decide

/-- C9 amended: in the stdout reader loop, both domain-event classification
and raw-text forwarding are gated on a registered stdout callback: with no
callback nothing happens at all; with a callback and non-empty reads, the
counter and events are those of the extractor and every raw chunk is
forwarded. -/
theorem listen_classification_gated (n : Int) (chunks : List (List Char))
    (hne : chunks.all (fun ch => !ch.isEmpty) = true) :
    listenToStdout false n chunks = (n, [], []) ∧
    listenToStdout true n chunks = ((runChunks n chunks).1, (runChunks n chunks).2, chunks) := by
  induction chunks generalizing n with
  | nil => simp [listenToStdout, runChunks]
  | cons ch rest ih =>
    simp only [List.all_cons, Bool.and_eq_true] at hne
    obtain ⟨hch, hrest⟩ := hne
    have hne2 : ch ≠ [] := by simpa using hch
    have hlen : 0 < ch.length := List.length_pos.mpr hne2
    constructor
    · have hstep : listenToStdoutStep false n ch = (n, [], []) := by
        simp [listenToStdoutStep]
      simp only [listenToStdout, hstep]
      simpa using (ih n hrest).1
    · have hstep : listenToStdoutStep true n ch =
          ((internalOnStdout n ch).1, (internalOnStdout n ch).2, [ch]) := by
        simp [listenToStdoutStep, hlen]
      simp only [listenToStdout, hstep]
      rw [(ih (internalOnStdout n ch).1 hrest).2]
      simp [runChunks]

theorem listen_classification_gated_witness :
    listenToStdout false 0 [bothChunk] = (0, [], []) ∧
    listenToStdout true 0 [bothChunk] =
      ((runChunks 0 [bothChunk]).1, (runChunks 0 [bothChunk]).2, [bothChunk]) :=
  listen_classification_gated 0 [bothChunk] (by decide)

/-! ## Supervisor state, `IsRunning`, `GetPID`, `Stop`

The fields of `Server` relevant to lifecycle control. `cmd` models the
`*exec.Cmd` pointer (`none` = nil) and its `Process` field; the separate
`pid` field mirrors the `Server.pid` field that `Stop` sets to `-1`.
`Stop`'s interaction with the OS is captured by an oracle environment:
whether the SIGTERM send succeeds, whether the process is observed alive at
each 1-second poll (`Signal(0)` succeeding), and whether the forced
`Kill()` succeeds. -/

structure GoProcess where
  pid : Int
deriving DecidableEq

structure GoCmd where
  process : Option GoProcess
deriving DecidableEq

structure ServerState where
  running : Bool
  pid : Int
  cmd : Option GoCmd
deriving DecidableEq

/-- `Server.IsRunning`. -/
def IsRunning (s : ServerState) : Bool := s.running

/-- `Server.GetPID`: returns `cmd.Process.Pid` whenever both pointers are
non-nil, `-1` otherwise. Note it reads the `exec.Cmd`, not the `pid` field. -/
def GetPID (s : ServerState) : Int :=
  match s.cmd with
  | some c =>
    match c.process with
    | some p => p.pid
    | none => -1
  | none => -1

inductive StopError where
  | notRunning
  | processUnavailable
  | sigtermFailed
  | killFailed
deriving DecidableEq

structure StopEnv where
  sigtermOk : Bool
  aliveAt : Nat → Bool
  killOk : Bool

/-- `Stop`'s polling loop: `waited` counts elapsed seconds (the interval is
1s); while `waited < 30` (the 30s timeout) the process is probed with
`Signal(0)`; the first failed probe (death) clears `running` and `pid` and
returns success. When the timeout elapses, `Kill()` is attempted: on
success `running`/`pid` are cleared, on failure the error is returned with
the state untouched. `fuel` is the number of remaining probes,
`30 - waited`. -/
def stopLoopAux (env : StopEnv) (s : ServerState) : Nat → Nat → ServerState × Option StopError
  | _, 0 =>
    if env.killOk then ({ s with running := false, pid := -1 }, none)
    else (s, some StopError.killFailed)
  | waited, Nat.succ k =>
    if env.aliveAt waited then stopLoopAux env s (waited + 1) k
    else ({ s with running := false, pid := -1 }, none)

/-- `Server.Stop`: precondition checks (`running`, non-nil `cmd` and
`cmd.Process`), the SIGTERM send, then the 30×1s polling loop with forced
kill on timeout. Returns the post-state and the error, `none` on success. -/
def Stop (env : StopEnv) (s : ServerState) : ServerState × Option StopError :=
  if s.running = false then (s, some StopError.notRunning)
  else
    match s.cmd with
    | none => (s, some StopError.processUnavailable)
    | some c =>
      match c.process with
      | none => (s, some StopError.processUnavailable)
      | some _ =>
        if env.sigtermOk = false then (s, some StopError.sigtermFailed)
        else stopLoopAux env s 0 30

/-- The state `launchProcess` leaves behind on a successful `Start`:
`running = true`, `pid` recorded, `cmd` and `cmd.Process` set. -/
def postStartState (p : Int) : ServerState :=
  { running := true, pid := p, cmd := some { process := some { pid := p } } }

theorem stopLoopAux_all_alive (env : StopEnv) (s : ServerState) (waited fuel : Nat)
    (h : ∀ j, waited ≤ j → j < waited + fuel → env.aliveAt j = true) :
    stopLoopAux env s waited fuel =
      (if env.killOk then ({ s with running := false, pid := -1 }, none)
       else (s, some StopError.killFailed)) := by
  induction fuel generalizing waited with
  | zero => simp [stopLoopAux]
  | succ k ih =>
    have ha : env.aliveAt waited = true := h waited le_rfl (by omega)
    simp only [stopLoopAux, ha, if_true]
    exact ih (waited + 1) (fun j hj1 hj2 => h j (by omega) (by omega))

theorem stopLoopAux_first_death (env : StopEnv) (s : ServerState) (waited fuel i : Nat)
    (hwi : waited ≤ i) (hif : i < waited + fuel)
    (hdead : env.aliveAt i = false)
    (halive : ∀ j, waited ≤ j → j < i → env.aliveAt j = true) :
    stopLoopAux env s waited fuel = ({ s with running := false, pid := -1 }, none) := by
  induction fuel generalizing waited with
  | zero => omega
  | succ k ih =>
    by_cases hw : waited = i
    · subst hw
      simp [stopLoopAux, hdead]
    · have ha : env.aliveAt waited = true := halive waited le_rfl (by omega)
      simp only [stopLoopAux, ha, if_true]
      exact ih (waited + 1) (by omega) (by omega) (fun j hj1 hj2 => halive j (by omega) hj2)

/-- C6: `Stop` on a running server with an available process, after a
successful SIGTERM send: (1) if the process is first observed dead at some
poll `i` within the 30 polls at 1-second intervals, `running` is set to
false, `pid` is cleared to `-1` and success is returned (whatever the kill
oracle says — no kill is attempted); (2) if the process stays alive for all
30 polls and the forced kill succeeds, `running` becomes false, `pid` is
cleared and success is returned; (3) if the forced kill fails, `Stop`
returns the `killFailed` error and the state is unchanged, so `running` is
still true. -/
theorem stop_protocol (env : StopEnv) (s : ServerState) (c : GoCmd) (p : GoProcess)
    (hrun : s.running = true) (hcmd : s.cmd = some c) (hproc : c.process = some p)
    (hsig : env.sigtermOk = true) :
    (∀ i, i < 30 → env.aliveAt i = false → (∀ j, j < i → env.aliveAt j = true) →
      Stop env s = ({ s with running := false, pid := -1 }, none)) ∧
    ((∀ j, j < 30 → env.aliveAt j = true) → env.killOk = true →
      Stop env s = ({ s with running := false, pid := -1 }, none)) ∧
    ((∀ j, j < 30 → env.aliveAt j = true) → env.killOk = false →
      Stop env s = (s, some StopError.killFailed) ∧ (Stop env s).1.running = true) := by
  have hstop : Stop env s = stopLoopAux env s 0 30 := by
    simp [Stop, hrun, hcmd, hproc, hsig]
  refine ⟨?_, ?_, ?_⟩
  · intro i hi hdead halive
    rw [hstop]
    exact stopLoopAux_first_death env s 0 30 i (Nat.zero_le i) (by omega) hdead
      (fun j _ hj2 => halive j hj2)
  · intro hall hk
    rw [hstop, stopLoopAux_all_alive env s 0 30 (fun j _ hj2 => hall j (by omega))]
    simp [hk]
  · intro hall hk
    rw [hstop, stopLoopAux_all_alive env s 0 30 (fun j _ hj2 => hall j (by omega))]
    simp [hk, hrun]

/-- A shutdown environment in which the process dies immediately after the
SIGTERM: alive at no poll, kill (never reached) would succeed. -/
def envStopW : StopEnv := { sigtermOk := true, aliveAt := fun _ => false, killOk := true }

theorem stop_protocol_witness :
    Stop envStopW (postStartState 4321) =
      ({ postStartState 4321 with running := false, pid := -1 }, none) :=
  (stop_protocol envStopW (postStartState 4321) { process := some { pid := 4321 } }
      { pid := 4321 } rfl rfl rfl rfl).1 0 (by omega) rfl
    (fun j hj => absurd hj (by omega))

/-- C2: after a successful `Start` (state `postStartState 4321`) followed by
a successful `Stop`, `IsRunning()` is false and the internal `pid` field is
cleared to `-1`, but `GetPID()` still returns the stale positive PID 4321 of
the dead process, because it reads `cmd.Process.Pid` and `Stop` never clears
`cmd` — contradicting `GetPID`'s own documentation ("or -1 if not
running"). -/
theorem getpid_stale_after_stop :
    (Stop envStopW (postStartState 4321)).2 = none ∧
    IsRunning (Stop envStopW (postStartState 4321)).1 = false ∧
    (Stop envStopW (postStartState 4321)).1.pid = -1 ∧
    GetPID (Stop envStopW (postStartState 4321)).1 = 4321 ∧
    0 < GetPID (Stop envStopW (postStartState 4321)).1 := by decide

/-! ## `Start`: configuration validation and side-effect trace

`Start` runs `ensureDirectory` first, then `prepare` (which is
`validateConfig`, `writeEULA`, `writeProperties`, `download.DownloadServerJar`
in that order), then `setupSignalHandlers` and `launchProcess`. The
filesystem/network/OS outcomes are an oracle environment; the returned
trace lists the side effects in the order they were performed. -/

inductive ConfigError where
  | noDirectory
  | portOutOfRange
  | memoryOutOfRange
  | memoryNotMultiple
  | eulaNotAccepted
  | alreadyRunning
deriving DecidableEq

/-- The configuration fields of `Server` read by `validateConfig`.
(`name` generation for an empty name mutates no external state and raises
no error, so it is not modelled.) -/
structure ServerConfig where
  directory : List Char
  port : Int
  memoryMB : Int
  eulaAccepted : Bool
  running : Bool
deriving DecidableEq

/-- `Server.validateConfig`, with `totalMB` the detected total system
memory: directory non-empty, port in [1, 65535], memory in
[512, totalMB − 512] and a multiple of 512, EULA accepted, not already
running — checked in that order. -/
def validateConfig (totalMB : Int) (c : ServerConfig) : Option ConfigError :=
  if c.directory = [] then some ConfigError.noDirectory
  else if c.port < 1 ∨ 65535 < c.port then some ConfigError.portOutOfRange
  else if c.memoryMB < 512 ∨ totalMB - 512 < c.memoryMB then some ConfigError.memoryOutOfRange
  else if c.memoryMB % 512 ≠ 0 then some ConfigError.memoryNotMultiple
  else if c.eulaAccepted = false then some ConfigError.eulaNotAccepted
  else if c.running = true then some ConfigError.alreadyRunning
  else none

inductive Effect where
  | mkdirWorkDir
  | writeEulaFile
  | writePropsFile
  | downloadJar
  | installSignalHandlers
  | spawnProcess
deriving DecidableEq

inductive StartError where
  | mkdirFailed
  | configError (e : ConfigError)
  | eulaWriteFailed
  | propsWriteFailed
  | downloadFailed
  | spawnFailed
deriving DecidableEq

structure StartEnv where
  totalMB : Int
  dirExists : Bool
  mkdirOk : Bool
  eulaWriteOk : Bool
  propsWriteOk : Bool
  downloadOk : Bool
  spawnOk : Bool
deriving DecidableEq

/-- The trace left by `ensureDirectory`: it creates the working directory
exactly when it does not already exist. -/
def dirTrace (env : StartEnv) : List Effect :=
  if env.dirExists then [] else [Effect.mkdirWorkDir]

/-- `Server.Start`: `ensureDirectory` (creates the working directory when it
does not exist — before any validation), then `prepare` =
`validateConfig`; `writeEULA`; `writeProperties`;
`download.DownloadServerJar`, then `setupSignalHandlers` and
`launchProcess`. Returns the ordered side-effect trace and the error
(`none` on success). -/
def Start (env : StartEnv) (c : ServerConfig) : List Effect × Option StartError :=
  if env.dirExists = false ∧ env.mkdirOk = false then ([], some StartError.mkdirFailed)
  else
    match validateConfig env.totalMB c with
    | some e => (dirTrace env, some (StartError.configError e))
    | none =>
      if env.eulaWriteOk = false then
        (dirTrace env ++ [Effect.writeEulaFile], some StartError.eulaWriteFailed)
      else if env.propsWriteOk = false then
        (dirTrace env ++ [Effect.writeEulaFile, Effect.writePropsFile],
          some StartError.propsWriteFailed)
      else if env.downloadOk = false then
        (dirTrace env ++ [Effect.writeEulaFile, Effect.writePropsFile, Effect.downloadJar],
          some StartError.downloadFailed)
      else if env.spawnOk = false then
        (dirTrace env ++ [Effect.writeEulaFile, Effect.writePropsFile, Effect.downloadJar,
          Effect.installSignalHandlers, Effect.spawnProcess], some StartError.spawnFailed)
      else
        (dirTrace env ++ [Effect.writeEulaFile, Effect.writePropsFile, Effect.downloadJar,
          Effect.installSignalHandlers, Effect.spawnProcess], none)

/-- An all-successful environment on an 8192 MB machine where the working
directory does not exist yet. -/
def envStartW : StartEnv :=
  { totalMB := 8192, dirExists := false, mkdirOk := true, eulaWriteOk := true,
    propsWriteOk := true, downloadOk := true, spawnOk := true }

/-- A configuration that is valid except for its memory value of 100 MB
(below 512 and not a multiple of 512). -/
def badMemConfig : ServerConfig :=
  { directory := "srv".data, port := 25565, memoryMB := 100,
    eulaAccepted := true, running := false }

/-- C5 counterexample: starting with an invalid memory value (100 MB) on a
machine whose working directory does not yet exist fails with a
`ConfigError` — but only after `ensureDirectory` has already created the
working directory, so a side effect does precede the failure report. -/
theorem invalid_config_start_cex :
    Start envStartW badMemConfig =
      ([Effect.mkdirWorkDir], some (StartError.configError ConfigError.memoryOutOfRange)) ∧
    Effect.mkdirWorkDir ∈ (Start envStartW badMemConfig).1 := by decide

/-- C5 amended: for any configuration whose memory is outside
[512, totalMB − 512] or not a multiple of 512, or whose port is outside
[1, 65535], or whose EULA is not accepted (and an environment in which
`ensureDirectory` does not itself fail), `Start` fails with a
`ConfigError`, spawns no process, writes no file and downloads nothing; the
only side effect that may precede the failure is the creation of the
working directory by `ensureDirectory`, which runs before validation. -/
theorem invalid_config_start (env : StartEnv) (c : ServerConfig)
    (hmk : env.dirExists = true ∨ env.mkdirOk = true)
    (hbad : c.memoryMB < 512 ∨ env.totalMB - 512 < c.memoryMB ∨ c.memoryMB % 512 ≠ 0 ∨
            c.port < 1 ∨ 65535 < c.port ∨ c.eulaAccepted = false) :
    (∃ e, (Start env c).2 = some (StartError.configError e)) ∧
    (Start env c).1 ⊆ [Effect.mkdirWorkDir] ∧
    Effect.spawnProcess ∉ (Start env c).1 ∧
    Effect.writeEulaFile ∉ (Start env c).1 ∧
    Effect.writePropsFile ∉ (Start env c).1 ∧
    Effect.downloadJar ∉ (Start env c).1 := by
  obtain ⟨e, he⟩ : ∃ e, validateConfig env.totalMB c = some e := by
    unfold validateConfig
    split_ifs with h1 h2 h3 h4 h5 h6
    · exact ⟨_, rfl⟩
    · exact ⟨_, rfl⟩
    · exact ⟨_, rfl⟩
    · exact ⟨_, rfl⟩
    · exact ⟨_, rfl⟩
    · exact ⟨_, rfl⟩
    · rcases hbad with hb | hb | hb | hb | hb | hb
      · exact absurd (Or.inl hb) h3
      · exact absurd (Or.inr hb) h3
      · exact absurd hb h4
      · exact absurd (Or.inl hb) h2
      · exact absurd (Or.inr hb) h2
      · exact absurd hb h5
  have hnot : ¬(env.dirExists = false ∧ env.mkdirOk = false) := by
    rcases hmk with hm | hm <;> simp [hm]
  have hs : Start env c = (dirTrace env, some (StartError.configError e)) := by
    unfold Start
    rw [if_neg hnot]
    simp only [he]
  rw [hs]
  cases hde : env.dirExists with
  | false => refine ⟨⟨e, rfl⟩, ?_, ?_, ?_, ?_, ?_⟩ <;> simp [dirTrace, hde]
  | true => refine ⟨⟨e, rfl⟩, ?_, ?_, ?_, ?_, ?_⟩ <;> simp [dirTrace, hde]

theorem invalid_config_start_witness :
    (∃ e, (Start envStartW badMemConfig).2 = some (StartError.configError e)) ∧
    (Start envStartW badMemConfig).1 ⊆ [Effect.mkdirWorkDir] ∧
    Effect.spawnProcess ∉ (Start envStartW badMemConfig).1 ∧
    Effect.writeEulaFile ∉ (Start envStartW badMemConfig).1 ∧
    Effect.writePropsFile ∉ (Start envStartW badMemConfig).1 ∧
    Effect.downloadJar ∉ (Start envStartW badMemConfig).1 :=
  invalid_config_start envStartW badMemConfig (Or.inr rfl) (Or.inl (by decide))

/-- A fully valid configuration: 2048 MB on an 8192 MB machine, default
port, EULA accepted. -/
def okConfig : ServerConfig :=
  { directory := "srv".data, port := 25565, memoryMB := 2048,
    eulaAccepted := true, running := false }

/-- C7 counterexample: on a successful `Start` the artifact download happens
*after* the EULA marker and the properties file are written, not between
directory creation and the EULA write as claimed: the actual trace is
mkdir, eula, properties, download, signal handlers, spawn. -/
theorem start_effect_order_cex :
    Start envStartW okConfig =
      ([Effect.mkdirWorkDir, Effect.writeEulaFile, Effect.writePropsFile,
        Effect.downloadJar, Effect.installSignalHandlers, Effect.spawnProcess], none) ∧
    (Start envStartW okConfig).1 ≠
      [Effect.mkdirWorkDir, Effect.downloadJar, Effect.writeEulaFile,
       Effect.writePropsFile, Effect.installSignalHandlers, Effect.spawnProcess] := by decide

/-- C7 amended: on every successful `Start` the side effects occur in
exactly this order: ensure the working directory exists (creating it only
when missing); write the EULA acceptance marker; merge-and-persist the
configured properties; resolve/fetch the server artifact; install OS signal
handlers; spawn the subordinate process. -/
theorem start_effect_order (env : StartEnv) (c : ServerConfig)
    (h : (Start env c).2 = none) :
    (Start env c).1 =
      (if env.dirExists then [] else [Effect.mkdirWorkDir]) ++
      [Effect.writeEulaFile, Effect.writePropsFile, Effect.downloadJar,
       Effect.installSignalHandlers, Effect.spawnProcess] := by
  unfold Start at h ⊢
  by_cases h1 : env.dirExists = false ∧ env.mkdirOk = false
  · rw [if_pos h1] at h
    exact absurd h (by simp)
  · rw [if_neg h1] at h ⊢
    cases hv : validateConfig env.totalMB c with
    | some e =>
      simp only [hv] at h
      exact absurd h (by simp)
    | none =>
      simp only [hv] at h ⊢
      by_cases h2 : env.eulaWriteOk = false
      · rw [if_pos h2] at h; exact absurd h (by simp)
      · rw [if_neg h2] at h ⊢
        by_cases h3 : env.propsWriteOk = false
        · rw [if_pos h3] at h; exact absurd h (by simp)
        · rw [if_neg h3] at h ⊢
          by_cases h4 : env.downloadOk = false
          · rw [if_pos h4] at h; exact absurd h (by simp)
          · rw [if_neg h4] at h ⊢
            by_cases h5 : env.spawnOk = false
            · rw [if_pos h5] at h; exact absurd h (by simp)
            · rw [if_neg h5]
              simp [dirTrace]

theorem start_effect_order_witness :
    (Start envStartW okConfig).1 =
      (if envStartW.dirExists then [] else [Effect.mkdirWorkDir]) ++
      [Effect.writeEulaFile, Effect.writePropsFile, Effect.downloadJar,
       Effect.installSignalHandlers, Effect.spawnProcess] :=
  start_effect_order envStartW okConfig (by decide)

/-! ## Archival engine (`createBackupTar`, `RestoreBackup`)

Relative paths are strings with `/` as separator, exactly as produced by
`filepath.Rel` during `filepath.Walk`. The walk visits a directory before
its entries, in the listed order, so the record list preserves that
order. -/

def pathSep : Char := '/'

def backupsName : List Char := "backups".data

/-- The exclusion test shared by `createBackupTar`'s walk callback and
`RestoreBackup`'s record loop:
`relPath == "backups" || strings.HasPrefix(relPath, "backups"+PathSeparator)`. -/
def skipBackups (relPath : List Char) : Bool :=
  relPath == backupsName || leadsWith (backupsName ++ [pathSep]) relPath

/-- A directory tree as seen by `filepath.Walk`: regular files with byte
content, directories with a list of named entries (in walk order). File
mode bits are not modelled — no claim concerns them. -/
inductive FsNode where
  | file (content : List Char) : FsNode
  | dir (entries : List (List Char × FsNode)) : FsNode

/-- A tar archive record: a `tar.TypeDir` header or a `tar.TypeReg` header
with streamed content, under its relative path (`header.Name`). -/
inductive TarRecord where
  | dirRec (name : List Char) : TarRecord
  | fileRec (name : List Char) (content : List Char) : TarRecord
deriving DecidableEq

def tarRecordName : TarRecord → List Char
  | TarRecord.dirRec nm => nm
  | TarRecord.fileRec nm _ => nm

/-- `filepath.Join` of a relative path and a child name; `filepath.Rel`
yields the bare name for children of the walk root. -/
def childPath (rel nm : List Char) : List Char :=
  if rel = [] then nm else rel ++ pathSep :: nm

/-! The records `createBackupTar`'s walk callback emits for the subtree at
relative path `rel`: a path passing `skipBackups` is pruned wholesale
(`filepath.SkipDir` for a directory, a bare `nil` return for a file);
otherwise a directory contributes its header followed by its entries in
walk order, and a regular file contributes its header plus content. -/
mutual
def tarOfNode (rel : List Char) : FsNode → List TarRecord
  | FsNode.file content =>
      if skipBackups rel then [] else [TarRecord.fileRec rel content]
  | FsNode.dir entries =>
      if skipBackups rel then []
      else TarRecord.dirRec rel :: tarOfEntries rel entries
def tarOfEntries (rel : List Char) : List (List Char × FsNode) → List TarRecord
  | [] => []
  | (nm, child) :: rest => tarOfNode (childPath rel nm) child ++ tarOfEntries rel rest
end

/-- `createBackupTar`: the walk starts at the source root, whose own record
(`relPath "."`) is skipped explicitly. A source that is a single regular
file yields only the skipped `"."` entry, hence the empty archive. -/
def createBackupTar : FsNode → List TarRecord
  | FsNode.file _ => []
  | FsNode.dir entries => tarOfEntries [] entries

/-- The parent directory of a relative path: everything before the last
separator, `[]` when the path holds none. -/
def parentDir (p : List Char) : List Char :=
  (((p.reverse).dropWhile (fun c => !(c == pathSep))).drop 1).reverse

def ancestorChain : Nat → List Char → List (List Char)
  | 0, _ => []
  | Nat.succ k, p => if p = [] then [] else p :: ancestorChain k (parentDir p)

/-- The directories `os.MkdirAll` guarantees to exist afterwards: the path
itself and all its ancestors. -/
def mkdirAll (p : List Char) : List (List Char) := ancestorChain (p.length + 1) p

/-- The state of the restore target directory: directories created so far
and files written so far (later writes shadow earlier ones on lookup, as
`O_TRUNC` overwrites). -/
structure RState where
  dirs : List (List Char)
  files : List (List Char × List Char)
deriving DecidableEq

/-- One iteration of `RestoreBackup`'s record loop: a record under the
backups store is skipped; a directory record runs `os.MkdirAll`; a regular
file record opens the target with `O_CREATE|O_WRONLY|O_TRUNC` — which
fails when the parent directory does not exist — and writes the content. -/
def restoreRecord (st : RState) : TarRecord → Option RState
  | TarRecord.dirRec nm =>
      if skipBackups nm then some st
      else some { st with dirs := mkdirAll nm ++ st.dirs }
  | TarRecord.fileRec nm content =>
      if skipBackups nm then some st
      else if parentDir nm = [] ∨ parentDir nm ∈ st.dirs then
        some { st with files := (nm, content) :: st.files }
      else none

/-- Sequential processing of the archive's records with early error return. -/
def restoreList (st : RState) : List TarRecord → Option RState
  | [] => some st
  | r :: rest =>
    match restoreRecord st r with
    | some st2 => restoreList st2 rest
    | none => none

/-- `RestoreBackup` into an (existing, empty) target directory. -/
def RestoreBackup (records : List TarRecord) : Option RState :=
  restoreList { dirs := [], files := [] } records

/-! All regular files of a subtree, with full relative paths and contents
(no pruning). -/
mutual
def filesOfNode (rel : List Char) : FsNode → List (List Char × List Char)
  | FsNode.file content => [(rel, content)]
  | FsNode.dir entries => filesOfEntries rel entries
def filesOfEntries (rel : List Char) : List (List Char × FsNode) → List (List Char × List Char)
  | [] => []
  | (nm, child) :: rest => filesOfNode (childPath rel nm) child ++ filesOfEntries rel rest
end

/-- All regular files of the tree, with their walk-relative paths. -/
def filesOf : FsNode → List (List Char × List Char)
  | FsNode.file _ => []
  | FsNode.dir entries => filesOfEntries [] entries

/-- A legal filesystem entry name: non-empty and free of the separator —
both guaranteed for names coming out of a real directory walk. -/
def goodName (nm : List Char) : Bool :=
  !(nm.isEmpty) && nm.all (fun c => !(c == pathSep))

/-! Well-formedness of a tree as a filesystem: every entry name is legal
and sibling names are distinct. -/
mutual
def wellFormedNode : FsNode → Bool
  | FsNode.file _ => true
  | FsNode.dir entries => wellFormedEntries entries
def wellFormedEntries : List (List Char × FsNode) → Bool
  | [] => true
  | (nm, child) :: rest =>
      goodName nm && (rest.map Prod.fst).all (fun x => !(x == nm)) &&
      wellFormedNode child && wellFormedEntries rest
end

/-- The `(path, content)` pairs of the regular-file records of an archive,
in order. -/
def fileRecsOf : List TarRecord → List (List Char × List Char)
  | [] => []
  | TarRecord.dirRec _ :: rest => fileRecsOf rest
  | TarRecord.fileRec nm c :: rest => (nm, c) :: fileRecsOf rest

/-! ## Path and exclusion lemmas -/

theorem leadsWith_self_append (p q : List Char) : leadsWith p (p ++ q) = true := by
  induction p with
  | nil => rfl
  | cons a as ih => simp [leadsWith, ih]

theorem leadsWith_append_right (p l q : List Char) (h : leadsWith p l = true) :
    leadsWith p (l ++ q) = true := by
  induction p generalizing l with
  | nil => rfl
  | cons a as ih =>
    cases l with
    | nil => simp [leadsWith] at h
    | cons b bs =>
      simp only [List.cons_append, leadsWith, Bool.and_eq_true] at h ⊢
      exact ⟨h.1, ih bs h.2⟩

theorem skipBackups_ne_nil (rel : List Char) (h : skipBackups rel = true) : rel ≠ [] := by
  intro hrel
  subst hrel
  exact absurd h (by decide)

theorem skipBackups_extend (rel s : List Char) (h : skipBackups rel = true) :
    skipBackups (rel ++ pathSep :: s) = true := by
  simp only [skipBackups, Bool.or_eq_true, beq_iff_eq] at h ⊢
  right
  rcases h with rfl | h
  · have h2 : backupsName ++ pathSep :: s = (backupsName ++ [pathSep]) ++ s := by simp
    rw [h2]
    exact leadsWith_self_append _ _
  · exact leadsWith_append_right _ rel _ h

theorem goodName_spec (nm : List Char) (h : goodName nm = true) :
    nm ≠ [] ∧ ∀ c ∈ nm, (c == pathSep) = false := by
  simp only [goodName, Bool.and_eq_true, Bool.not_eq_true', List.all_eq_true] at h
  obtain ⟨h1, h2⟩ := h
  constructor
  · intro he
    subst he
    simp at h1
  · intro c hc
    simpa using h2 c hc

theorem dropWhile_all (p : Char → Bool) (l : List Char) (h : ∀ x ∈ l, p x = true) :
    l.dropWhile p = [] := by
  induction l with
  | nil => rfl
  | cons a as ih =>
    have ha := h a (List.mem_cons_self a as)
    simp [List.dropWhile, ha, ih (fun x hx => h x (List.mem_cons_of_mem a hx))]

theorem dropWhile_append_all (p : Char → Bool) (l1 l2 : List Char)
    (h : ∀ x ∈ l1, p x = true) : (l1 ++ l2).dropWhile p = l2.dropWhile p := by
  induction l1 with
  | nil => rfl
  | cons a as ih =>
    have ha := h a (List.mem_cons_self a as)
    simp [List.dropWhile, ha, ih (fun x hx => h x (List.mem_cons_of_mem a hx))]

theorem childPath_ne_nil (rel nm : List Char) (h : goodName nm = true) :
    childPath rel nm ≠ [] := by
  obtain ⟨hne, _⟩ := goodName_spec nm h
  unfold childPath
  by_cases hrel : rel = []
  · simpa [hrel] using hne
  · simp [hrel]

theorem parentDir_childPath (rel nm : List Char) (h : goodName nm = true) :
    parentDir (childPath rel nm) = rel := by
  obtain ⟨hne, hns⟩ := goodName_spec nm h
  have hpred : ∀ c ∈ nm.reverse, (fun c => !(c == pathSep)) c = true := by
    intro c hc
    simp only [List.mem_reverse] at hc
    simp [hns c hc]
  unfold childPath
  by_cases hrel : rel = []
  · subst hrel
    rw [if_pos rfl]
    unfold parentDir
    rw [dropWhile_all _ nm.reverse hpred]
    rfl
  · rw [if_neg hrel]
    unfold parentDir
    rw [List.reverse_append, List.reverse_cons, List.append_assoc,
      dropWhile_append_all _ nm.reverse _ hpred]
    simp [List.dropWhile]

/-! ## The archive never contains an entry under the backups store -/

mutual
theorem tar_not_skipped_node (rel : List Char) (n : FsNode) :
    ∀ r ∈ tarOfNode rel n, skipBackups (tarRecordName r) = false := by
  match n with
  | FsNode.file c =>
    intro r hr
    simp only [tarOfNode] at hr
    by_cases h : skipBackups rel
    · simp [h] at hr
    · simp [h] at hr
      subst hr
      simpa [tarRecordName] using h
  | FsNode.dir entries =>
    intro r hr
    simp only [tarOfNode] at hr
    by_cases h : skipBackups rel
    · simp [h] at hr
    · simp [h] at hr
      rcases hr with hr | hr
      · subst hr
        simpa [tarRecordName] using h
      · exact tar_not_skipped_entries rel entries r hr
theorem tar_not_skipped_entries (rel : List Char) (l : List (List Char × FsNode)) :
    ∀ r ∈ tarOfEntries rel l, skipBackups (tarRecordName r) = false := by
  match l with
  | [] =>
    intro r hr
    simp [tarOfEntries] at hr
  | (nm, child) :: rest =>
    intro r hr
    simp only [tarOfEntries, List.mem_append] at hr
    rcases hr with hr | hr
    · exact tar_not_skipped_node (childPath rel nm) child r hr
    · exact tar_not_skipped_entries rel rest r hr
end

/-- The tree of the C3 scenario: the backup destination chosen as the
subdirectory `store` of the source, already holding the partially-written
archive file, next to an ordinary file `world.dat`. -/
def storeTree : FsNode :=
  FsNode.dir [("store".data, FsNode.dir [("backup-20250101-000000.tar.zst".data,
      FsNode.file "partial".data)]),
    ("world.dat".data, FsNode.file "w".data)]

/-- C3 counterexample: with `destinationDir = sourceDir/store`, the archive
produced by `createBackupTar` does contain entries from the destination's
own subtree — including the archive file being written — because the walk
prunes only the hardcoded relative path `backups`, not the destination. -/
theorem createBackupTar_dest_not_pruned_cex :
    createBackupTar storeTree =
      [TarRecord.dirRec ("store".data),
       TarRecord.fileRec ("store/backup-20250101-000000.tar.zst".data) ("partial".data),
       TarRecord.fileRec ("world.dat".data) ("w".data)] ∧
    TarRecord.fileRec ("store/backup-20250101-000000.tar.zst".data) ("partial".data)
      ∈ createBackupTar storeTree ∧
    leadsWith ("store/".data) ("store/backup-20250101-000000.tar.zst".data) = true := by
  decide

/-- C3 amended: `createBackupTar` prunes exactly the subtree at the fixed
relative path `backups` under the source: no record of any produced archive
has a name equal to `backups` or under `backups/`. The destination's own
subtree is therefore excluded precisely when the destination is
`sourceDir/backups` — which is how `Server.Backup` always invokes it. -/
theorem createBackupTar_excludes_backups (t : FsNode) :
    (createBackupTar t).all (fun r => !(skipBackups (tarRecordName r))) = true := by
  cases t with
  | file c => rfl
  | dir entries =>
    rw [List.all_eq_true]
    intro r hr
    simpa using tar_not_skipped_entries [] entries r hr

/-! ## Restoring an archive produced by the walk succeeds -/

theorem restoreList_append (st : RState) (a b : List TarRecord) :
    restoreList st (a ++ b) =
      match restoreList st a with
      | some st1 => restoreList st1 b
      | none => none := by
  induction a generalizing st with
  | nil => rfl
  | cons r rest ih =>
    simp only [List.cons_append, restoreList]
    cases restoreRecord st r with
    | some st2 => exact ih st2
    | none => rfl

theorem fileRecsOf_append (a b : List TarRecord) :
    fileRecsOf (a ++ b) = fileRecsOf a ++ fileRecsOf b := by
  induction a with
  | nil => rfl
  | cons r rest ih => cases r <;> simp [fileRecsOf, ih]

theorem mem_mkdirAll_self (p : List Char) (h : p ≠ []) : p ∈ mkdirAll p := by
  simp [mkdirAll, ancestorChain, h]

mutual
theorem restore_tarOfNode (rel : List Char) (n : FsNode) (st : RState)
    (hwf : wellFormedNode n = true)
    (hp : parentDir rel = [] ∨ parentDir rel ∈ st.dirs) :
    ∃ st2, restoreList st (tarOfNode rel n) = some st2 ∧
      (∀ d ∈ st.dirs, d ∈ st2.dirs) ∧
      st2.files = (fileRecsOf (tarOfNode rel n)).reverse ++ st.files := by
  match n with
  | FsNode.file content =>
    by_cases hs : skipBackups rel = true
    · refine ⟨st, ?_, fun d hd => hd, ?_⟩ <;> simp [tarOfNode, hs, restoreList, fileRecsOf]
    · have hrec : restoreRecord st (TarRecord.fileRec rel content) =
          some { st with files := (rel, content) :: st.files } := by
        simp [restoreRecord, hs, hp]
      refine ⟨{ st with files := (rel, content) :: st.files }, ?_, fun d hd => hd, ?_⟩
      · simp [tarOfNode, hs, restoreList, hrec]
      · simp [tarOfNode, hs, fileRecsOf]
  | FsNode.dir entries =>
    by_cases hs : skipBackups rel = true
    · refine ⟨st, ?_, fun d hd => hd, ?_⟩ <;> simp [tarOfNode, hs, restoreList, fileRecsOf]
    · have hwfe : wellFormedEntries entries = true := by simpa [wellFormedNode] using hwf
      have hrec : restoreRecord st (TarRecord.dirRec rel) =
          some { st with dirs := mkdirAll rel ++ st.dirs } := by
        simp [restoreRecord, hs]
      have hin1 : rel = [] ∨ rel ∈ ({ st with dirs := mkdirAll rel ++ st.dirs } : RState).dirs := by
        by_cases hrel : rel = []
        · exact Or.inl hrel
        · refine Or.inr ?_
          simp only [List.mem_append]
          exact Or.inl (mem_mkdirAll_self rel hrel)
      obtain ⟨st2, he2, hmono2, hfiles2⟩ :=
        restore_tarOfEntries rel entries { st with dirs := mkdirAll rel ++ st.dirs } hwfe hin1
      refine ⟨st2, ?_, ?_, ?_⟩
      · simp [tarOfNode, hs, restoreList, hrec, he2]
      · intro d hd
        refine hmono2 d ?_
        simp only [List.mem_append]
        exact Or.inr hd
      · simp only [tarOfNode, if_neg hs, fileRecsOf, hfiles2]
theorem restore_tarOfEntries (rel : List Char) (l : List (List Char × FsNode)) (st : RState)
    (hwf : wellFormedEntries l = true)
    (hin : rel = [] ∨ rel ∈ st.dirs) :
    ∃ st2, restoreList st (tarOfEntries rel l) = some st2 ∧
      (∀ d ∈ st.dirs, d ∈ st2.dirs) ∧
      st2.files = (fileRecsOf (tarOfEntries rel l)).reverse ++ st.files := by
  match l with
  | [] => exact ⟨st, rfl, fun d hd => hd, by simp [tarOfEntries, fileRecsOf]⟩
  | (nm, child) :: rest =>
    simp only [wellFormedEntries, Bool.and_eq_true] at hwf
    obtain ⟨⟨⟨hgood, hnomem⟩, hwchild⟩, hwrest⟩ := hwf
    have hp : parentDir (childPath rel nm) = [] ∨ parentDir (childPath rel nm) ∈ st.dirs := by
      rw [parentDir_childPath rel nm hgood]
      exact hin
    obtain ⟨st1, he1, hmono1, hfiles1⟩ :=
      restore_tarOfNode (childPath rel nm) child st hwchild hp
    have hin1 : rel = [] ∨ rel ∈ st1.dirs := by
      rcases hin with h | h
      · exact Or.inl h
      · exact Or.inr (hmono1 rel h)
    obtain ⟨st2, he2, hmono2, hfiles2⟩ := restore_tarOfEntries rel rest st1 hwrest hin1
    refine ⟨st2, ?_, fun d hd => hmono2 d (hmono1 d hd), ?_⟩
    · simp only [tarOfEntries]
      rw [restoreList_append, he1]
      exact he2
    · simp only [tarOfEntries]
      rw [hfiles2, hfiles1, fileRecsOf_append, List.reverse_append, List.append_assoc]
end

/-! ## The archive's file records are exactly the unpruned files -/

mutual
theorem files_skipped_node (rel : List Char) (n : FsNode) (h : skipBackups rel = true) :
    ∀ pc ∈ filesOfNode rel n, skipBackups pc.1 = true := by
  match n with
  | FsNode.file content =>
    intro pc hpc
    simp only [filesOfNode, List.mem_singleton] at hpc
    subst hpc
    exact h
  | FsNode.dir entries =>
    intro pc hpc
    simp only [filesOfNode] at hpc
    exact files_skipped_entries rel entries h pc hpc
theorem files_skipped_entries (rel : List Char) (l : List (List Char × FsNode))
    (h : skipBackups rel = true) :
    ∀ pc ∈ filesOfEntries rel l, skipBackups pc.1 = true := by
  match l with
  | [] =>
    intro pc hpc
    simp [filesOfEntries] at hpc
  | (nm, child) :: rest =>
    intro pc hpc
    simp only [filesOfEntries, List.mem_append] at hpc
    have hrel : rel ≠ [] := skipBackups_ne_nil rel h
    have hchild : skipBackups (childPath rel nm) = true := by
      unfold childPath
      rw [if_neg hrel]
      exact skipBackups_extend rel nm h
    rcases hpc with hpc | hpc
    · exact files_skipped_node (childPath rel nm) child hchild pc hpc
    · exact files_skipped_entries rel rest h pc hpc
end

mutual
theorem tarFiles_eq_filter_node (rel : List Char) (n : FsNode) :
    fileRecsOf (tarOfNode rel n) =
      (filesOfNode rel n).filter (fun pc => !(skipBackups pc.1)) := by
  match n with
  | FsNode.file content =>
    by_cases hs : skipBackups rel = true
    · simp [tarOfNode, hs, fileRecsOf, filesOfNode]
    · simp [tarOfNode, hs, fileRecsOf, filesOfNode]
  | FsNode.dir entries =>
    by_cases hs : skipBackups rel = true
    · simp only [tarOfNode, if_pos hs, fileRecsOf, filesOfNode]
      symm
      rw [List.filter_eq_nil_iff]
      intro pc hpc
      simp [files_skipped_entries rel entries hs pc hpc]
    · simp only [tarOfNode, if_neg hs, fileRecsOf, filesOfNode]
      exact tarFiles_eq_filter_entries rel entries
theorem tarFiles_eq_filter_entries (rel : List Char) (l : List (List Char × FsNode)) :
    fileRecsOf (tarOfEntries rel l) =
      (filesOfEntries rel l).filter (fun pc => !(skipBackups pc.1)) := by
  match l with
  | [] => rfl
  | (nm, child) :: rest =>
    simp only [tarOfEntries, filesOfEntries, fileRecsOf_append, List.filter_append]
    rw [tarFiles_eq_filter_node (childPath rel nm) child,
      tarFiles_eq_filter_entries rel rest]
end

/-! ## File paths are pairwise distinct in a well-formed tree -/

/-- The first segment of a relative path: everything before the first
separator. -/
def firstSeg (p : List Char) : List Char := p.takeWhile (fun c => !(c == pathSep))

theorem firstSeg_append_unit (nm ext : List Char)
    (hns : ∀ c ∈ nm, (c == pathSep) = false)
    (hext : ext = [] ∨ ∃ s, ext = pathSep :: s) :
    firstSeg (nm ++ ext) = nm := by
  induction nm with
  | nil =>
    rcases hext with rfl | ⟨s, rfl⟩
    · rfl
    · simp [firstSeg, List.takeWhile]
  | cons a as ih =>
    have ha := hns a (List.mem_cons_self a as)
    simp only [List.cons_append, firstSeg, List.takeWhile, ha, Bool.not_false]
    simpa [firstSeg] using ih (fun c hc => hns c (List.mem_cons_of_mem a hc))

mutual
theorem filesOfNode_shape (rel : List Char) (n : FsNode) (hrel : rel ≠ []) :
    ∀ pc ∈ filesOfNode rel n, pc.1 = rel ∨ ∃ s, pc.1 = rel ++ pathSep :: s := by
  match n with
  | FsNode.file content =>
    intro pc hpc
    simp only [filesOfNode, List.mem_singleton] at hpc
    subst hpc
    exact Or.inl rfl
  | FsNode.dir entries =>
    intro pc hpc
    simp only [filesOfNode] at hpc
    exact filesOfEntries_shape rel entries hrel pc hpc
theorem filesOfEntries_shape (rel : List Char) (l : List (List Char × FsNode))
    (hrel : rel ≠ []) :
    ∀ pc ∈ filesOfEntries rel l, pc.1 = rel ∨ ∃ s, pc.1 = rel ++ pathSep :: s := by
  match l with
  | [] =>
    intro pc hpc
    simp [filesOfEntries] at hpc
  | (nm, child) :: rest =>
    intro pc hpc
    simp only [filesOfEntries, List.mem_append] at hpc
    rcases hpc with hpc | hpc
    · have hcp : childPath rel nm = rel ++ pathSep :: nm := by
        unfold childPath
        rw [if_neg hrel]
      have hne : childPath rel nm ≠ [] := by
        rw [hcp]
        simp
      rcases filesOfNode_shape (childPath rel nm) child hne pc hpc with h | ⟨s, h⟩
      · exact Or.inr ⟨nm, by rw [h, hcp]⟩
      · refine Or.inr ⟨nm ++ pathSep :: s, ?_⟩
        rw [h, hcp]
        simp
    · exact filesOfEntries_shape rel rest hrel pc hpc
end

theorem filesOfEntries_first_name (rel : List Char) (l : List (List Char × FsNode))
    (hwf : wellFormedEntries l = true) :
    ∀ pc ∈ filesOfEntries rel l, ∃ nm ext, nm ∈ l.map Prod.fst ∧
      pc.1 = childPath rel nm ++ ext ∧ (ext = [] ∨ ∃ s, ext = pathSep :: s) := by
  induction l with
  | nil =>
    intro pc hpc
    simp [filesOfEntries] at hpc
  | cons e rest ih =>
    obtain ⟨nm, child⟩ := e
    intro pc hpc
    simp only [wellFormedEntries, Bool.and_eq_true] at hwf
    obtain ⟨⟨⟨hgood, _⟩, hwchild⟩, hwrest⟩ := hwf
    simp only [filesOfEntries, List.mem_append] at hpc
    rcases hpc with hpc | hpc
    · have hne := childPath_ne_nil rel nm hgood
      rcases filesOfNode_shape (childPath rel nm) child hne pc hpc with h | ⟨s, h⟩
      · exact ⟨nm, [], by simp only [List.map_cons]; exact List.mem_cons_self _ _,
          by simp [h], Or.inl rfl⟩
      · exact ⟨nm, pathSep :: s, by simp only [List.map_cons]; exact List.mem_cons_self _ _,
          by simp [h], Or.inr ⟨s, rfl⟩⟩
    · obtain ⟨nm2, ext, hmem, heq, hext⟩ := ih hwrest pc hpc
      exact ⟨nm2, ext, by simp only [List.map_cons]; exact List.mem_cons_of_mem _ hmem,
        heq, hext⟩

theorem childPath_first_inj (rel a b x y : List Char)
    (ha : ∀ c ∈ a, (c == pathSep) = false) (hb : ∀ c ∈ b, (c == pathSep) = false)
    (hx : x = [] ∨ ∃ s, x = pathSep :: s) (hy : y = [] ∨ ∃ s, y = pathSep :: s)
    (heq : childPath rel a ++ x = childPath rel b ++ y) : a = b := by
  unfold childPath at heq
  by_cases hrel : rel = []
  · rw [if_pos hrel, if_pos hrel] at heq
    have h2 : firstSeg (a ++ x) = firstSeg (b ++ y) := by rw [heq]
    rwa [firstSeg_append_unit a x ha hx, firstSeg_append_unit b y hb hy] at h2
  · rw [if_neg hrel, if_neg hrel] at heq
    have h1 : rel ++ pathSep :: (a ++ x) = rel ++ pathSep :: (b ++ y) := by
      simpa [List.append_assoc] using heq
    have h2 : a ++ x = b ++ y := by
      have h3 := List.append_cancel_left h1
      exact List.cons.injEq pathSep (a ++ x) pathSep (b ++ y) ▸ h3 |>.2
    have h4 : firstSeg (a ++ x) = firstSeg (b ++ y) := by rw [h2]
    rwa [firstSeg_append_unit a x ha hx, firstSeg_append_unit b y hb hy] at h4

theorem wf_names_good (l : List (List Char × FsNode)) (hwf : wellFormedEntries l = true) :
    ∀ nm ∈ l.map Prod.fst, goodName nm = true := by
  induction l with
  | nil => simp
  | cons e rest ih =>
    obtain ⟨nm0, child⟩ := e
    simp only [wellFormedEntries, Bool.and_eq_true] at hwf
    obtain ⟨⟨⟨hgood, _⟩, _⟩, hwrest⟩ := hwf
    intro nm hm
    simp only [List.map_cons, List.mem_cons] at hm
    rcases hm with rfl | hm
    · exact hgood
    · exact ih hwrest nm hm

mutual
theorem filesOfNode_names_nodup (rel : List Char) (n : FsNode)
    (hwf : wellFormedNode n = true) :
    ((filesOfNode rel n).map Prod.fst).Nodup := by
  match n with
  | FsNode.file content => simp [filesOfNode]
  | FsNode.dir entries =>
    simp only [filesOfNode]
    exact filesOfEntries_names_nodup rel entries (by simpa [wellFormedNode] using hwf)
theorem filesOfEntries_names_nodup (rel : List Char) (l : List (List Char × FsNode))
    (hwf : wellFormedEntries l = true) :
    ((filesOfEntries rel l).map Prod.fst).Nodup := by
  match l with
  | [] => simp [filesOfEntries]
  | (nm, child) :: rest =>
    simp only [wellFormedEntries, Bool.and_eq_true] at hwf
    obtain ⟨⟨⟨hgood, hnomem⟩, hwchild⟩, hwrest⟩ := hwf
    simp only [filesOfEntries, List.map_append]
    rw [List.nodup_append]
    refine ⟨filesOfNode_names_nodup _ child hwchild,
      filesOfEntries_names_nodup rel rest hwrest, ?_⟩
    intro p hpA hpB
    obtain ⟨pc1, hpc1, rfl⟩ := List.mem_map.mp hpA
    obtain ⟨pc2, hpc2, heq2⟩ := List.mem_map.mp hpB
    have hne := childPath_ne_nil rel nm hgood
    have h1 : pc1.1 = childPath rel nm ++ [] ∨
        ∃ s, pc1.1 = childPath rel nm ++ pathSep :: s := by
      rcases filesOfNode_shape (childPath rel nm) child hne pc1 hpc1 with h | h
      · exact Or.inl (by simpa using h)
      · exact Or.inr h
    obtain ⟨nm2, ext2, hmem2, heqp2, hext2⟩ :=
      filesOfEntries_first_name rel rest hwrest pc2 hpc2
    have hgood2 : goodName nm2 = true := wf_names_good rest hwrest nm2 hmem2
    have hchars : ∀ c ∈ nm, (c == pathSep) = false := (goodName_spec nm hgood).2
    have hchars2 : ∀ c ∈ nm2, (c == pathSep) = false := (goodName_spec nm2 hgood2).2
    have hnm : nm = nm2 := by
      rcases h1 with h | ⟨s, h⟩
      · refine childPath_first_inj rel nm nm2 [] ext2 hchars hchars2 (Or.inl rfl) hext2 ?_
        rw [← h, ← heqp2, heq2]
      · refine childPath_first_inj rel nm nm2 (pathSep :: s) ext2 hchars hchars2
          (Or.inr ⟨s, rfl⟩) hext2 ?_
        rw [← h, ← heqp2, heq2]
    rw [List.all_eq_true] at hnomem
    have := hnomem nm2 hmem2
    simp only [hnm, Bool.not_eq_true', beq_self_eq_true] at this
    exact absurd this (by simp)

end

theorem lookup_eq_of_mem_nodup (l : List (List Char × List Char)) (p c : List Char)
    (hnd : (l.map Prod.fst).Nodup) (hm : (p, c) ∈ l) :
    List.lookup p l = some c := by
  induction l with
  | nil => simp at hm
  | cons e rest ih =>
    obtain ⟨k, v⟩ := e
    simp only [List.map_cons, List.nodup_cons] at hnd
    obtain ⟨hk, hnd2⟩ := hnd
    simp only [List.mem_cons] at hm
    rcases hm with he | hm
    · cases he
      simp [List.lookup]
    · have hpk : p ≠ k := by
        intro hpk
        subst hpk
        exact hk (List.mem_map_of_mem Prod.fst hm)
      have hbeq : (p == k) = false := by simpa using hpk
      simp only [List.lookup, hbeq]
      exact ih hnd2 hm

/-- C4: restoring the archive produced by the walk of any well-formed
directory tree into an empty target succeeds, and every regular file of the
source outside the `backups` store subtree is reproduced at its identical
relative path with identical byte content. -/
theorem backup_restore_roundtrip (entries : List (List Char × FsNode))
    (hwf : wellFormedEntries entries = true) :
    ∃ st, RestoreBackup (createBackupTar (FsNode.dir entries)) = some st ∧
      ∀ p c, (p, c) ∈ filesOf (FsNode.dir entries) → skipBackups p = false →
        List.lookup p st.files = some c := by
  obtain ⟨st, he, _, hfiles⟩ :=
    restore_tarOfEntries [] entries { dirs := [], files := [] } hwf (Or.inl rfl)
  refine ⟨st, by simpa [RestoreBackup, createBackupTar] using he, ?_⟩
  intro p c hm hskip
  rw [hfiles]
  simp only [List.append_nil]
  have hmem : (p, c) ∈ fileRecsOf (tarOfEntries [] entries) := by
    rw [tarFiles_eq_filter_entries, List.mem_filter]
    exact ⟨by simpa [filesOf] using hm, by simp [hskip]⟩
  have hnd : ((fileRecsOf (tarOfEntries [] entries)).map Prod.fst).Nodup := by
    rw [tarFiles_eq_filter_entries]
    have hsub : (((filesOfEntries [] entries).filter
        (fun pc => !(skipBackups pc.1))).map Prod.fst).Sublist
        ((filesOfEntries [] entries).map Prod.fst) :=
      (List.filter_sublist _).map Prod.fst
    exact (filesOfEntries_names_nodup [] entries hwf).sublist hsub
  apply lookup_eq_of_mem_nodup
  · rw [List.map_reverse]
    exact List.nodup_reverse.mpr hnd
  · simpa using hmem

/-- The tree of the C4 witness: a nested directory, a `backups` store with
an old archive in it, and a top-level file. -/
def rtEntries : List (List Char × FsNode) :=
  [("a".data, FsNode.dir [("f.txt".data, FsNode.file "hello".data)]),
   ("backups".data, FsNode.dir [("old.tar".data, FsNode.file "x".data)]),
   ("top.txt".data, FsNode.file "t".data)]

theorem backup_restore_roundtrip_witness :
    wellFormedEntries rtEntries = true ∧
    (∃ st, RestoreBackup (createBackupTar (FsNode.dir rtEntries)) = some st ∧
      ∀ p c, (p, c) ∈ filesOf (FsNode.dir rtEntries) → skipBackups p = false →
        List.lookup p st.files = some c) :=
  ⟨by decide, backup_restore_roundtrip rtEntries (by decide)⟩

end Gomcserver
